import Mathlib

/-!
Shallow embedding of the leanSig batch verifier from
`src/openvm/guest/src/xmss_verify.rs` (crate `openvm/guest`), together with the
data types from `src/openvm/xmss-types/src/lib.rs`.

Machine integers are modelled as `Nat` with explicit `% 2 ^ w` at the places
where the Rust code truncates (casts, wrapping arithmetic).  Field elements
`KoalaBear` are modelled as `ZMod 2130706433`; `KoalaBear::from_u32` is the
`Nat → ZMod _` cast.  Rust code that can panic (assertions, out-of-bounds
slicing, the sponge squeeze loop) is modelled with `Option`, where `none`
stands for a panic.  The two Poseidon2 permutations live in the external
`p3_koala_bear` crate, outside this repository; they are modelled as abstract
length-preserving functions bundled in `PoseidonContext`.  The SHA-256
function comes from the external `openvm_sha2` crate and is likewise taken as
an abstract parameter.
-/

set_option maxRecDepth 100000

/-- The KoalaBear prime `p = 2^31 - 2^24 + 1`, `FIELD_MODULUS` in the source. -/
abbrev FIELD_MODULUS : Nat := 2130706433

/-- The KoalaBear field, `ZMod p`. -/
abbrev KoalaBear : Type := ZMod FIELD_MODULUS

abbrev FE_BYTES : Nat := 4
abbrev HASH_LEN_FE : Nat := 7
abbrev MSG_HASH_LEN_FE : Nat := 5
abbrev PARAMETER_LEN_FE : Nat := 5
abbrev RANDOMNESS_LEN_FE : Nat := 6
abbrev TWEAK_LEN_FE : Nat := 2
abbrev MSG_LEN_FE : Nat := 9
abbrev NUM_CHAINS : Nat := 155
abbrev NUM_CHUNKS_MESSAGE : Nat := NUM_CHAINS
abbrev TREE_HEIGHT : Nat := 18
abbrev BASE : Nat := 2
abbrev TWEAK_SEPARATOR_FOR_MESSAGE_HASH : Nat := 2
abbrev TWEAK_SEPARATOR_FOR_TREE_HASH : Nat := 1
abbrev TWEAK_SEPARATOR_FOR_CHAIN_HASH : Nat := 0
abbrev POSEIDON_CAPACITY_LEN : Nat := 9

/-- `u32::from_le_bytes` on a 4-byte chunk (missing bytes read as zero,
matching the zero-padded buffer in `SmallBigUint::from_le_bytes`). -/
def bytesToU32 (chunk : List Nat) : Nat :=
  chunk.getD 0 0 + chunk.getD 1 0 * 2 ^ 8 + chunk.getD 2 0 * 2 ^ 16 + chunk.getD 3 0 * 2 ^ 24

/-- Split a list into consecutive chunks of `size` elements (the last chunk may
be shorter), by structural recursion on a fuel that the wrapper instantiates
with the list length.  Models `slice::chunks` and the absorb loop chunking. -/
def chunksGo {α : Type} (size : Nat) : Nat → List α → List (List α)
  | _, [] => []
  | 0, _ :: _ => []
  | fuel + 1, x :: xs => (x :: xs).take size :: chunksGo size fuel ((x :: xs).drop size)

/-- Split a list into consecutive chunks of `size` elements. -/
def chunksOf {α : Type} (size : Nat) (l : List α) : List (List α) :=
  chunksGo size l.length l

/-- `SmallBigUint`: little-endian `u32` limbs (source lines 545-548). -/
structure SmallBigUint where
  limbs : List Nat

/-- Trim most-significant zero limbs (`SmallBigUint::normalize`). -/
def normalizeLimbs (l : List Nat) : List Nat :=
  (l.reverse.dropWhile (fun x => x == 0)).reverse

def SmallBigUint.normalize (s : SmallBigUint) : SmallBigUint :=
  ⟨normalizeLimbs s.limbs⟩

def SmallBigUint.zero : SmallBigUint := ⟨[]⟩

def SmallBigUint.is_zero (s : SmallBigUint) : Bool := s.limbs.isEmpty

/-- `SmallBigUint::from_u64`. -/
def SmallBigUint.from_u64 (v : Nat) : SmallBigUint :=
  let lo := v % 2 ^ 32
  let hi := (v >>> 32) % 2 ^ 32
  SmallBigUint.normalize ⟨if hi ≠ 0 then [lo, hi] else [lo]⟩

/-- `SmallBigUint::from_le_bytes`: pack 4-byte LE groups into limbs. -/
def SmallBigUint.from_le_bytes (bytes : List Nat) : SmallBigUint :=
  SmallBigUint.normalize ⟨(chunksOf 4 bytes).map bytesToU32⟩

/-- The carry loop of `SmallBigUint::mul_small`. -/
def mulSmallGo (mul : Nat) : List Nat → Nat → List Nat
  | [], carry => if carry ≠ 0 then [carry % 2 ^ 32] else []
  | limb :: rest, carry =>
    let prod := limb * mul + carry
    prod % 2 ^ 32 :: mulSmallGo mul rest (prod >>> 32)

/-- `SmallBigUint::mul_small`. -/
def SmallBigUint.mul_small (s : SmallBigUint) (mul : Nat) : SmallBigUint :=
  if mul = 0 ∨ s.is_zero then ⟨[]⟩ else ⟨mulSmallGo mul s.limbs 0⟩

/-- The ripple-carry loop of `SmallBigUint::add_small` (early exit when the
carry dies out, push a final carry limb if one survives). -/
def addSmallGo : List Nat → Nat → List Nat
  | [], carry => if carry ≠ 0 then [carry % 2 ^ 32] else []
  | limb :: rest, carry =>
    if carry = 0 then limb :: rest
    else (limb + carry) % 2 ^ 32 :: addSmallGo rest ((limb + carry) >>> 32)

/-- `SmallBigUint::add_small`. -/
def SmallBigUint.add_small (s : SmallBigUint) (add : Nat) : SmallBigUint :=
  ⟨addSmallGo s.limbs add⟩

/-- Long-division loop of `SmallBigUint::div_small`, most significant limb
first; returns the quotient limbs (MSB first) and the remainder. -/
def divSmallGo (divisor : Nat) : List Nat → Nat → List Nat × Nat
  | [], rem => ([], rem)
  | limb :: rest, rem =>
    let cur := (rem <<< 32) ||| limb
    let out := divSmallGo divisor rest (cur % divisor)
    (cur / divisor % 2 ^ 32 :: out.1, out.2)

/-- `SmallBigUint::div_small`: in-place long division, returning the
(normalized) quotient and the remainder.  Division by zero returns remainder
zero, matching the early return in the source. -/
def SmallBigUint.div_small (s : SmallBigUint) (divisor : Nat) : SmallBigUint × Nat :=
  if divisor = 0 then (s, 0)
  else
    let out := divSmallGo divisor s.limbs.reverse 0
    (SmallBigUint.normalize ⟨out.1.reverse⟩, out.2)

/-- `biguint_to_base` (source lines 534-543): emit exactly `digits` base-`base`
digits, least significant first; once the value is exhausted the remaining
preallocated slots stay zero.  Each digit is stored as a `u8`. -/
def biguint_to_base (value : SmallBigUint) (base : Nat) (digits : Nat) : List Nat :=
  match digits with
  | 0 => []
  | n + 1 =>
    if value.is_zero then List.replicate (n + 1) 0
    else
      let out := value.div_small base
      out.2 % 2 ^ 8 :: biguint_to_base out.1 base n

/-! ## Data types (`src/openvm/xmss-types/src/lib.rs`) -/

structure Signature where
  leaf_index : Nat
  randomness : List Nat
  wots_chain_ends : List (List Nat)
  auth_path : List (List Nat)

structure PublicKey where
  root : List Nat
  parameter : List Nat

structure Statement where
  k : Nat
  ep : Nat
  m : List Nat
  public_keys : List PublicKey

structure Witness where
  signatures : List Signature

structure TslParams where
  w : Nat
  v : Nat
  d0 : Nat
  security_bits : Nat
  tree_height : Nat

structure VerificationBatch where
  params : TslParams
  statement : Statement
  witness : Witness

/-! ## Permutation context

The two Poseidon2 permutations (`Poseidon2KoalaBear<16>` / `<24>`) come from
the external `p3_koala_bear` crate.  Their Rust types guarantee that they map
a width-`W` state to a width-`W` state; the bundled length laws model exactly
that typing fact and nothing else about them. -/

structure PoseidonContext where
  perm16 : List KoalaBear → List KoalaBear
  perm24 : List KoalaBear → List KoalaBear
  perm16_length : ∀ l, (perm16 l).length = l.length
  perm24_length : ∀ l, (perm24 l).length = l.length

/-- A concrete context (identity permutations) used to evaluate the embedding
on closed inputs. -/
def idCtx : PoseidonContext :=
  ⟨id, id, fun _ => rfl, fun _ => rfl⟩

/-! ## Compression (feed-forward) -/

/-- Zero-extend `input` to width `w` (`let mut padded = [F::ZERO; W]` plus the
prefix copy). -/
def padTo (w : Nat) (input : List KoalaBear) : List KoalaBear :=
  input ++ List.replicate (w - input.length) 0

/-- `for (i, val) in input.iter().enumerate() { state[i] += *val }`. -/
def add_into_state (state input : List KoalaBear) : List KoalaBear :=
  List.zipWith (fun a b => a + b) state (padTo state.length input)

/-- Common body of `poseidon_compress16` / `poseidon_compress24` (source lines
504-532): pad to the permutation width, permute, feed the input forward, and
truncate.  `none` models the `assert!(input.len() >= OUT_LEN)` failure and the
panic of the prefix copy when `input.len() > W`. -/
def poseidon_compressW (w : Nat) (perm : List KoalaBear → List KoalaBear)
    (outLen : Nat) (input : List KoalaBear) : Option (List KoalaBear) :=
  if outLen ≤ input.length ∧ input.length ≤ w then
    some ((add_into_state (perm (padTo w input)) input).take outLen)
  else none

def poseidon_compress16 (ctx : PoseidonContext) (outLen : Nat)
    (input : List KoalaBear) : Option (List KoalaBear) :=
  poseidon_compressW 16 ctx.perm16 outLen input

def poseidon_compress24 (ctx : PoseidonContext) (outLen : Nat)
    (input : List KoalaBear) : Option (List KoalaBear) :=
  poseidon_compressW 24 ctx.perm24 outLen input

/-! ## Tweaks -/

inductive PoseidonTweak where
  | tree (level : Nat) (pos_in_level : Nat)
  | chain (epoch : Nat) (chain_index : Nat) (pos_in_chain : Nat)

/-- The packed tweak integer (the `u128` accumulator of
`PoseidonTweak::to_field_elements`, source lines 379-398). -/
def PoseidonTweak.pack : PoseidonTweak → Nat
  | .tree level pos_in_level =>
    (level <<< 40) ||| (pos_in_level <<< 8) ||| TWEAK_SEPARATOR_FOR_TREE_HASH
  | .chain epoch chain_index pos_in_chain =>
    (epoch <<< 24) ||| (chain_index <<< 16) ||| (pos_in_chain <<< 8) |||
      TWEAK_SEPARATOR_FOR_CHAIN_HASH

/-- Base-`p` digit loop over a `u128` accumulator, least significant digit
first (used by `to_field_elements` and `poseidon_safe_domain_separator24`). -/
def basePDigits : Nat → Nat → List KoalaBear
  | _, 0 => []
  | acc, n + 1 => ((acc % FIELD_MODULUS : Nat) : KoalaBear) :: basePDigits (acc / FIELD_MODULUS) n

/-- `PoseidonTweak::to_field_elements`: exactly `TWEAK_LEN_FE = 2` base-`p`
digits of the packed integer. -/
def PoseidonTweak.to_field_elements (t : PoseidonTweak) : List KoalaBear :=
  basePDigits t.pack TWEAK_LEN_FE

/-! ## Sponge -/

/-- `poseidon_safe_domain_separator24` (source lines 458-473): pack the four
`u32` parameters big-endian into one `u128`, base-`p` decompose into 24 lanes,
compress to `POSEIDON_CAPACITY_LEN = 9` lanes. -/
def poseidon_safe_domain_separator24 (ctx : PoseidonContext) (params : List Nat) :
    Option (List KoalaBear) :=
  poseidon_compress24 ctx POSEIDON_CAPACITY_LEN
    (basePDigits (params.foldl (fun acc p => (acc <<< 32) ||| p % 2 ^ 32) 0) 24)

/-- The absorb loop of `poseidon_sponge24`: add each rate-sized input chunk
into the front of the state, then permute. -/
def sponge_absorb (ctx : PoseidonContext) (rate : Nat) (state : List KoalaBear)
    (input : List KoalaBear) : List KoalaBear :=
  (chunksOf rate input).foldl (fun st chunk => ctx.perm24 (add_into_state st chunk)) state

/-- The squeeze loop of `poseidon_sponge24`: emit `rate` lanes, permute,
repeat until `outLen` lanes are available.  The fuel bounds the number of
iterations; `none` (fuel exhausted) models a non-terminating loop, which can
only happen when the rate is zero. -/
def sponge_squeeze (ctx : PoseidonContext) (rate outLen : Nat) :
    Nat → List KoalaBear → List KoalaBear → Option (List KoalaBear)
  | fuel, state, out =>
    if outLen ≤ out.length then some out
    else
      match fuel with
      | 0 => none
      | fuel + 1 => sponge_squeeze ctx rate outLen fuel (ctx.perm24 state) (out ++ state.take rate)

/-- `poseidon_sponge24` (source lines 475-502).  `none` models the
`assert!(capacity_value.len() < 24)` failure. -/
def poseidon_sponge24 (ctx : PoseidonContext) (outLen : Nat)
    (capacity_value input : List KoalaBear) : Option (List KoalaBear) :=
  if capacity_value.length < 24 then
    let rate := 24 - capacity_value.length
    let state := List.replicate rate (0 : KoalaBear) ++ capacity_value
    (sponge_squeeze ctx rate outLen outLen (sponge_absorb ctx rate state input) []).map
      (fun out => out.take outLen)
  else none

/-- `poseidon_apply` (source lines 409-456): dispatch on the number of message
blocks — width-16 compression for one block, width-24 compression for two,
domain-separated sponge otherwise. -/
def poseidon_apply (ctx : PoseidonContext) (parameter : List KoalaBear)
    (tweak : PoseidonTweak) (message : List (List KoalaBear)) : Option (List KoalaBear) :=
  match message with
  | [block] =>
    poseidon_compress16 ctx HASH_LEN_FE (parameter ++ tweak.to_field_elements ++ block)
  | [blockL, blockR] =>
    poseidon_compress24 ctx HASH_LEN_FE
      (parameter ++ tweak.to_field_elements ++ blockL ++ blockR)
  | blocks =>
    match poseidon_safe_domain_separator24 ctx
        [PARAMETER_LEN_FE, TWEAK_LEN_FE, blocks.length % 2 ^ 32, HASH_LEN_FE] with
    | none => none
    | some capacity =>
      poseidon_sponge24 ctx HASH_LEN_FE capacity
        (parameter ++ tweak.to_field_elements ++ blocks.flatten)

/-! ## Message hash and codeword -/

/-- The base-`p` digit loop over a `SmallBigUint` accumulator (the
`div_small(FIELD_MODULUS)` loops of `encode_message` / `encode_epoch`). -/
def bigDigitsLoop : SmallBigUint → Nat → List KoalaBear
  | _, 0 => []
  | acc, n + 1 =>
    let out := acc.div_small FIELD_MODULUS
    ((out.2 : Nat) : KoalaBear) :: bigDigitsLoop out.1 n

/-- `encode_message` (source lines 276-284): the 32-byte digest as an LE
integer, base-`p` decomposed into `MSG_LEN_FE = 9` lanes. -/
def encode_message (message : List Nat) : List KoalaBear :=
  bigDigitsLoop (SmallBigUint.from_le_bytes message) MSG_LEN_FE

/-- `encode_epoch` (source lines 286-295): `((epoch as u64) << 8) | 0x02`,
base-`p` decomposed into `TWEAK_LEN_FE = 2` lanes. -/
def encode_epoch (epoch : Nat) : List KoalaBear :=
  bigDigitsLoop
    (SmallBigUint.from_u64 ((epoch % 2 ^ 32 <<< 8) ||| TWEAK_SEPARATOR_FOR_MESSAGE_HASH))
    TWEAK_LEN_FE

/-- `decode_to_chunks` (source lines 297-304): reassemble the 5 hash lanes into
a big integer (most significant lane first) and emit 155 base-2 digits. -/
def decode_to_chunks (fe : List KoalaBear) : List Nat :=
  biguint_to_base
    (fe.foldl (fun acc element => (acc.mul_small FIELD_MODULUS).add_small element.val)
      SmallBigUint.zero)
    BASE NUM_CHUNKS_MESSAGE

/-- `poseidon_message_hash` (source lines 252-274): a single width-24
compression of `ρ ‖ parameter ‖ epoch_tweak ‖ message_fe` to 5 lanes, then
chunk decoding. -/
def poseidon_message_hash (ctx : PoseidonContext) (parameter : List KoalaBear)
    (epoch : Nat) (randomness : List KoalaBear) (message : List Nat) : Option (List Nat) :=
  (poseidon_compress24 ctx MSG_HASH_LEN_FE
      (randomness ++ parameter ++ encode_epoch epoch ++ encode_message message)).map
    decode_to_chunks

/-- `targetsim_codeword` (source lines 241-250). -/
def targetsim_codeword (ctx : PoseidonContext) (parameter : List KoalaBear)
    (epoch : Nat) (randomness : List KoalaBear) (message : List Nat) : Option (List Nat) :=
  poseidon_message_hash ctx parameter epoch randomness message

/-! ## Chain walk -/

/-- The offset loop of `walk_chain` (source lines 306-324).  The tweak position
is the `u8` sum `start_pos + offset as u8 + 1`. -/
def walkChainGo (ctx : PoseidonContext) (parameter : List KoalaBear)
    (epoch chain_index start_pos : Nat) :
    Nat → Nat → List KoalaBear → Option (List KoalaBear)
  | _, 0, current => some current
  | offset, steps + 1, current =>
    match poseidon_apply ctx parameter
        (.chain epoch chain_index ((start_pos + offset % 2 ^ 8 + 1) % 2 ^ 8)) [current] with
    | none => none
    | some next => walkChainGo ctx parameter epoch chain_index start_pos (offset + 1) steps next

/-- `walk_chain`. -/
def walk_chain (ctx : PoseidonContext) (parameter : List KoalaBear)
    (epoch chain_index start_pos steps : Nat) (start : List KoalaBear) :
    Option (List KoalaBear) :=
  walkChainGo ctx parameter epoch chain_index start_pos 0 steps start

/-! ## Merkle verification -/

/-- The per-level loop of `hash_tree_verify` (source lines 339-352): order the
children by the low bit of `idx`, halve `idx`, compress under the tree tweak
of the next level (`level as u8 + 1` is `u8` arithmetic). -/
def treeLoop (ctx : PoseidonContext) (parameter : List KoalaBear) :
    Nat → Nat → List KoalaBear → List (List KoalaBear) → Option (List KoalaBear)
  | _, _, current, [] => some current
  | level, idx, current, sibling :: rest =>
    let children := if idx &&& 1 = 0 then [current, sibling] else [sibling, current]
    let idx2 := idx >>> 1
    match poseidon_apply ctx parameter (.tree ((level % 2 ^ 8 + 1) % 2 ^ 8) idx2) children with
    | none => none
    | some next => treeLoop ctx parameter (level + 1) idx2 next rest

/-- `hash_tree_verify` (source lines 326-354). -/
def hash_tree_verify (ctx : PoseidonContext) (parameter root : List KoalaBear)
    (position : Nat) (leaf path : List (List KoalaBear)) : Option Bool :=
  if path.length ≠ TREE_HEIGHT then some false
  else
    match poseidon_apply ctx parameter (.tree 0 position) leaf with
    | none => none
    | some first =>
      match treeLoop ctx parameter 0 position first path with
      | none => none
      | some current => some (decide (current = root))

/-! ## Byte decoding -/

/-- `bytes_to_field_array` (source lines 216-226): reject a wrong byte length,
then decode each 4-byte LE limb with `KoalaBear::from_u32` (which reduces
modulo `p`). -/
def bytes_to_field_array (n : Nat) (bytes : List Nat) : Option (List KoalaBear) :=
  if bytes.length = n * FE_BYTES then
    some ((chunksOf FE_BYTES bytes).map (fun chunk => ((bytesToU32 chunk : Nat) : KoalaBear)))
  else none

/-- `decode_domains` (source lines 228-234). -/
def decode_domains : List (List Nat) → Option (List (List KoalaBear))
  | [] => some []
  | item :: rest =>
    match bytes_to_field_array HASH_LEN_FE item with
    | none => none
    | some fe =>
      match decode_domains rest with
      | none => none
      | some out => some (fe :: out)

/-- `digest_to_array` (source lines 207-214). -/
def digest_to_array (message : List Nat) : Option (List Nat) :=
  if message.length = 32 then some message else none

/-! ## Per-signature verification -/

/-- Run a fallible decoding step; a decode failure makes `verify_one` return
`false` (the `match ... None => return false` pattern in the source). -/
def orFalse {α : Type} (o : Option α) (f : α → Option Bool) : Option Bool :=
  match o with
  | none => some false
  | some a => f a

/-- The chain loop of `verify_one` (source lines 174-195): reject any codeword
chunk `≥ BASE` (inner `none`), otherwise walk each chain the remaining
`(BASE - 1) - start_pos` steps.  The outer `Option` layer is panic. -/
def chainEndsLoop (ctx : PoseidonContext) (parameter : List KoalaBear) (epoch : Nat) :
    Nat → List (Nat × List KoalaBear) → Option (Option (List (List KoalaBear)))
  | _, [] => some (some [])
  | chain_index, (steps_seen, start_hash) :: rest =>
    if BASE ≤ steps_seen then some none
    else
      match walk_chain ctx parameter epoch (chain_index % 2 ^ 8) steps_seen
          (BASE - 1 - steps_seen) start_hash with
      | none => none
      | some progressed =>
        match chainEndsLoop ctx parameter epoch (chain_index + 1) rest with
        | none => none
        | some none => some none
        | some (some ends) => some (some (progressed :: ends))

/-- `verify_one` (source lines 119-205).  `some false` is rejection, `none` is
panic. -/
def verify_one (ctx : PoseidonContext) (sig : Signature) (pk : PublicKey)
    (message : List Nat) (epoch : Nat) : Option Bool :=
  if sig.wots_chain_ends.length ≠ NUM_CHAINS then some false
  else if sig.auth_path.length ≠ TREE_HEIGHT then some false
  else if sig.randomness.length ≠ RANDOMNESS_LEN_FE * FE_BYTES then some false
  else if pk.parameter.length ≠ PARAMETER_LEN_FE * FE_BYTES ∨
      pk.root.length ≠ HASH_LEN_FE * FE_BYTES then some false
  else if sig.leaf_index ≠ epoch then some false
  else
    orFalse (bytes_to_field_array RANDOMNESS_LEN_FE sig.randomness) fun randomness =>
    orFalse (bytes_to_field_array PARAMETER_LEN_FE pk.parameter) fun parameter =>
    orFalse (bytes_to_field_array HASH_LEN_FE pk.root) fun pk_root =>
    orFalse (decode_domains sig.wots_chain_ends) fun chain_hashes =>
    orFalse (decode_domains sig.auth_path) fun auth_path =>
    orFalse (digest_to_array message) fun digest =>
    match targetsim_codeword ctx parameter epoch randomness digest with
    | none => none
    | some codeword =>
      if codeword.length ≠ NUM_CHAINS then some false
      else
        match chainEndsLoop ctx parameter epoch 0 (codeword.zip chain_hashes) with
        | none => none
        | some none => some false
        | some (some chain_ends) =>
          hash_tree_verify ctx parameter pk_root epoch chain_ends auth_path

/-! ## Batch driver -/

/-- `params_match` (source lines 113-117). -/
def params_match (params : TslParams) : Bool :=
  params.w == 2 && params.v == NUM_CHAINS && params.tree_height == TREE_HEIGHT

/-- The pair loop of `verify_batch`: AND-accumulate the per-signature result,
increment the `u32` counter unconditionally. -/
def batchLoop (ctx : PoseidonContext) (m : List Nat) (epoch : Nat) :
    Bool → Nat → List (Signature × PublicKey) → Option (Bool × Nat)
  | all_valid, count, [] => some (all_valid, count)
  | all_valid, count, (sig, pk) :: rest =>
    match verify_one ctx sig pk m epoch with
    | none => none
    | some ok => batchLoop ctx m epoch (all_valid && ok) ((count + 1) % 2 ^ 32) rest

/-- `verify_batch` (source lines 64-95). -/
def verify_batch (ctx : PoseidonContext) (batch : VerificationBatch) : Option (Bool × Nat) :=
  if batch.statement.public_keys.length ≠ batch.statement.k ∨
      batch.witness.signatures.length ≠ batch.statement.k then some (false, 0)
  else if !params_match batch.params then some (false, 0)
  else if 2 ^ 32 ≤ batch.statement.ep then some (false, 0)
  else
    batchLoop ctx batch.statement.m batch.statement.ep true 0
      (batch.witness.signatures.zip batch.statement.public_keys)

/-! ## Statement commitment -/

/-- `u32::to_le_bytes`. -/
def u32_le_bytes (x : Nat) : List Nat :=
  [x % 2 ^ 8, x / 2 ^ 8 % 2 ^ 8, x / 2 ^ 16 % 2 ^ 8, x / 2 ^ 24 % 2 ^ 8]

/-- `u64::to_le_bytes`. -/
def u64_le_bytes (x : Nat) : List Nat :=
  u32_le_bytes x ++ u32_le_bytes (x >>> 32)

/-- The byte buffer hashed by `statement_commitment` (source lines 97-111),
built exactly as the successive `extend_from_slice` calls do. -/
def commitment_bytes (stmt : Statement) : List Nat :=
  u32_le_bytes stmt.k ++ u64_le_bytes stmt.ep ++ u32_le_bytes stmt.m.length ++ stmt.m ++
    u32_le_bytes stmt.public_keys.length ++
    stmt.public_keys.foldl (fun buf pk => buf ++ pk.root ++ pk.parameter) []

/-- `statement_commitment`, with the external `openvm_sha2::sha256` as an
abstract parameter. -/
def statement_commitment (sha256 : List Nat → List Nat) (stmt : Statement) : List Nat :=
  sha256 (commitment_bytes stmt)

/-! ## Specification-side definitions

These two definitions follow the wording of the specification (§4.8 and §4.9)
rather than the source, for the refinement claims that compare code and spec. -/

/-- Spec §4.8 step 2, stated as written: children ordered by the low bit of
`idx`, `idx` halved, `compress24<7>(parameter ‖ Tree(ℓ+1, idx) ‖ children)`. -/
def merkleLoopSpec (ctx : PoseidonContext) (parameter : List KoalaBear) :
    Nat → Nat → List KoalaBear → List (List KoalaBear) → Option (List KoalaBear)
  | _, _, current, [] => some current
  | level, idx, current, sibling :: rest =>
    let pair := if idx &&& 1 = 0 then (current, sibling) else (sibling, current)
    let idx2 := idx >>> 1
    match poseidon_compress24 ctx HASH_LEN_FE
        (parameter ++ (PoseidonTweak.tree (level + 1) idx2).to_field_elements ++
          pair.1 ++ pair.2) with
    | none => none
    | some next => merkleLoopSpec ctx parameter (level + 1) idx2 next rest

/-- Spec §4.8 stated as written: the leaf is the sponge-path hash of the 155
endpoint blocks under `Tree(0, leaf_index)` (`n = 155 > 2` forces the sponge),
then 18 compress24 levels, then comparison with the root. -/
def merkle_verify_spec (ctx : PoseidonContext) (parameter root : List KoalaBear)
    (position : Nat) (leaf path : List (List KoalaBear)) : Option Bool :=
  match poseidon_safe_domain_separator24 ctx
      [PARAMETER_LEN_FE, TWEAK_LEN_FE, NUM_CHAINS, HASH_LEN_FE] with
  | none => none
  | some capacity =>
    match poseidon_sponge24 ctx HASH_LEN_FE capacity
        (parameter ++ (PoseidonTweak.tree 0 position).to_field_elements ++ leaf.flatten) with
    | none => none
    | some first =>
      match merkleLoopSpec ctx parameter 0 position first path with
      | none => none
      | some current => some (decide (current = root))

/-- Spec §4.9 commitment byte string, stated as written:
`k(4 LE) ‖ ep(8 LE) ‖ mlen(4 LE) ‖ m ‖ pkslen(4 LE)` followed by each key's
root bytes and parameter bytes verbatim, with no framing between them. -/
def spec_commitment_bytes (stmt : Statement) : List Nat :=
  u32_le_bytes stmt.k ++ u64_le_bytes stmt.ep ++ u32_le_bytes stmt.m.length ++ stmt.m ++
    u32_le_bytes stmt.public_keys.length ++
    (stmt.public_keys.map (fun pk => pk.root ++ pk.parameter)).flatten

/-- Well-formedness of a tweak at its Rust types: `Tree(u8, u32)` and
`Chain(u32, u8, u8)`. -/
def tweak_in_range : PoseidonTweak → Prop
  | .tree level pos_in_level => level < 2 ^ 8 ∧ pos_in_level < 2 ^ 32
  | .chain epoch chain_index pos_in_chain =>
    epoch < 2 ^ 32 ∧ chain_index < 2 ^ 8 ∧ pos_in_chain < 2 ^ 8

/-! ## Length and range lemmas -/

theorem basePDigits_length (acc n : Nat) : (basePDigits acc n).length = n := by
  induction n generalizing acc with
  | zero => rfl
  | succ n ih => simp [basePDigits, ih]

theorem bigDigitsLoop_length (acc : SmallBigUint) (n : Nat) :
    (bigDigitsLoop acc n).length = n := by
  induction n generalizing acc with
  | zero => rfl
  | succ n ih => simp [bigDigitsLoop, ih]

theorem divSmallGo_snd_lt (d : Nat) (hd : 0 < d) :
    ∀ (l : List Nat) (rem : Nat), rem < d → (divSmallGo d l rem).2 < d := by
  intro l
  induction l with
  | nil => intro rem h; simpa [divSmallGo] using h
  | cons limb rest ih =>
    intro rem _
    simpa [divSmallGo] using ih _ (Nat.mod_lt _ hd)

theorem div_small_snd_lt (s : SmallBigUint) (d : Nat) (hd : 0 < d) :
    (s.div_small d).2 < d := by
  have hne : ¬d = 0 := Nat.pos_iff_ne_zero.mp hd
  simpa [SmallBigUint.div_small, hne] using divSmallGo_snd_lt d hd s.limbs.reverse 0 hd

theorem biguint_to_base_length (v : SmallBigUint) (b n : Nat) :
    (biguint_to_base v b n).length = n := by
  induction n generalizing v with
  | zero => rfl
  | succ n ih =>
    rw [biguint_to_base]
    by_cases hz : v.is_zero = true
    · simp [hz]
    · simp [hz, ih]

theorem biguint_to_base_lt (b : Nat) (hb : 0 < b) :
    ∀ (n : Nat) (v : SmallBigUint) (x : Nat), x ∈ biguint_to_base v b n → x < b := by
  intro n
  induction n with
  | zero => intro v x hx; simp [biguint_to_base] at hx
  | succ n ih =>
    intro v x hx
    rw [biguint_to_base] at hx
    by_cases hz : v.is_zero = true
    · simp [hz] at hx
      omega
    · simp [hz] at hx
      rcases hx with hx | hx
      · have h1 : (v.div_small b).2 < b := div_small_snd_lt v b hb
        have h2 : (v.div_small b).2 % 2 ^ 8 ≤ (v.div_small b).2 := Nat.mod_le _ _
        omega
      · exact ih _ _ hx

theorem chunksGo_length_of_mul {α : Type} :
    ∀ (n fuel : Nat) (l : List α), l.length = 4 * n → l.length ≤ fuel →
      (chunksGo 4 fuel l).length = n := by
  intro n
  induction n with
  | zero =>
    intro fuel l hl _
    have : l = [] := List.length_eq_zero.mp (by omega)
    subst this
    cases fuel <;> rfl
  | succ n ih =>
    intro fuel l hl hf
    rcases l with _ | ⟨x, xs⟩
    · simp at hl
    rcases fuel with _ | fuel
    · simp at hf
    rw [chunksGo]
    have hdrop : ((x :: xs).drop 4).length = 4 * n := by
      rw [List.length_drop]
      omega
    have hthis : (chunksGo 4 fuel ((x :: xs).drop 4)).length = n :=
      ih fuel _ hdrop (by rw [hdrop]; simp at hl hf; omega)
    simp at hthis ⊢
    omega

theorem bytes_to_field_array_length (n : Nat) (bytes : List Nat) (l : List KoalaBear)
    (h : bytes_to_field_array n bytes = some l) : l.length = n := by
  rw [bytes_to_field_array] at h
  by_cases hlen : bytes.length = n * FE_BYTES
  · rw [if_pos hlen] at h
    cases h
    rw [List.length_map, chunksOf]
    refine chunksGo_length_of_mul n bytes.length bytes ?_ (le_refl _)
    simp only [FE_BYTES] at hlen
    omega
  · rw [if_neg hlen] at h
    cases h

theorem decode_domains_mem :
    ∀ (input : List (List Nat)) (out : List (List KoalaBear)),
      decode_domains input = some out → ∀ e ∈ out, e.length = HASH_LEN_FE := by
  intro input
  induction input with
  | nil =>
    intro out h
    cases h
    intro e he
    simp at he
  | cons item rest ih =>
    intro out h e he
    rw [decode_domains] at h
    cases h1 : bytes_to_field_array HASH_LEN_FE item with
    | none => rw [h1] at h; cases h
    | some fe =>
      rw [h1] at h
      cases h2 : decode_domains rest with
      | none => rw [h2] at h; cases h
      | some tl =>
        rw [h2] at h
        cases h
        rcases List.mem_cons.mp he with rfl | hmem
        · exact bytes_to_field_array_length _ _ _ h1
        · exact ih tl h2 e hmem

theorem padTo_length (w : Nat) (input : List KoalaBear) (h : input.length ≤ w) :
    (padTo w input).length = w := by
  simp [padTo]
  omega

theorem add_into_state_length (st inp : List KoalaBear) :
    (add_into_state st inp).length = st.length := by
  simp [add_into_state, padTo]
  omega

/-! ## Compression and sponge lemmas -/

theorem poseidon_compressW_some (w : Nat) (perm : List KoalaBear → List KoalaBear)
    (outLen : Nat) (input : List KoalaBear)
    (hp : (perm (padTo w input)).length = w)
    (h2 : input.length ≤ w) (h3 : outLen ≤ input.length) :
    ∃ l, poseidon_compressW w perm outLen input = some l ∧ l.length = outLen := by
  refine ⟨_, by rw [poseidon_compressW, if_pos ⟨h3, h2⟩], ?_⟩
  rw [List.length_take, add_into_state_length, hp]
  omega

theorem poseidon_compress16_some (ctx : PoseidonContext) (outLen : Nat)
    (input : List KoalaBear) (h2 : input.length ≤ 16) (h3 : outLen ≤ input.length) :
    ∃ l, poseidon_compress16 ctx outLen input = some l ∧ l.length = outLen :=
  poseidon_compressW_some 16 ctx.perm16 outLen input
    (by rw [ctx.perm16_length, padTo_length _ _ h2]) h2 h3

theorem poseidon_compress24_some (ctx : PoseidonContext) (outLen : Nat)
    (input : List KoalaBear) (h2 : input.length ≤ 24) (h3 : outLen ≤ input.length) :
    ∃ l, poseidon_compress24 ctx outLen input = some l ∧ l.length = outLen :=
  poseidon_compressW_some 24 ctx.perm24 outLen input
    (by rw [ctx.perm24_length, padTo_length _ _ h2]) h2 h3

theorem sponge_absorb_length (ctx : PoseidonContext) (rate : Nat)
    (state input : List KoalaBear) :
    (sponge_absorb ctx rate state input).length = state.length := by
  rw [sponge_absorb]
  generalize chunksOf rate input = chunks
  induction chunks generalizing state with
  | nil => rfl
  | cons c rest ih =>
    rw [List.foldl_cons, ih, ctx.perm24_length, add_into_state_length]

theorem sponge_squeeze_some (ctx : PoseidonContext) (rate outLen : Nat) (hr : 1 ≤ rate) :
    ∀ (fuel : Nat) (state out : List KoalaBear), state.length = 24 →
      outLen ≤ out.length + fuel →
      ∃ l, sponge_squeeze ctx rate outLen fuel state out = some l ∧ outLen ≤ l.length := by
  intro fuel
  induction fuel with
  | zero =>
    intro state out _ hle
    refine ⟨out, ?_, by omega⟩
    rw [sponge_squeeze, if_pos (by omega)]
  | succ fuel ih =>
    intro state out hstate hle
    by_cases hdone : outLen ≤ out.length
    · exact ⟨out, by rw [sponge_squeeze, if_pos hdone], hdone⟩
    · rw [sponge_squeeze, if_neg hdone]
      refine ih (ctx.perm24 state) (out ++ state.take rate) (by rw [ctx.perm24_length, hstate]) ?_
      rw [List.length_append, List.length_take, hstate]
      omega

theorem poseidon_sponge24_some (ctx : PoseidonContext) (outLen : Nat)
    (capacity input : List KoalaBear) (hcap : capacity.length < 24) :
    ∃ l, poseidon_sponge24 ctx outLen capacity input = some l ∧ l.length = outLen := by
  rw [poseidon_sponge24, if_pos hcap]
  have hstate : (sponge_absorb ctx (24 - capacity.length)
      (List.replicate (24 - capacity.length) (0 : KoalaBear) ++ capacity) input).length = 24 := by
    rw [sponge_absorb_length, List.length_append, List.length_replicate]
    omega
  obtain ⟨l, hl, hlen⟩ :=
    sponge_squeeze_some ctx (24 - capacity.length) outLen (by omega) outLen _ [] hstate
      (by simp)
  refine ⟨l.take outLen, ?_, by rw [List.length_take]; omega⟩
  simp [hl]

theorem tweak_fe_length (t : PoseidonTweak) : t.to_field_elements.length = TWEAK_LEN_FE :=
  basePDigits_length _ _

theorem poseidon_apply_some (ctx : PoseidonContext) (parameter : List KoalaBear)
    (tweak : PoseidonTweak) (message : List (List KoalaBear))
    (hpar : parameter.length = PARAMETER_LEN_FE)
    (hmsg : ∀ b ∈ message, b.length = HASH_LEN_FE) :
    ∃ l, poseidon_apply ctx parameter tweak message = some l ∧ l.length = HASH_LEN_FE := by
  have htw := tweak_fe_length tweak
  have hsponge : ∀ blocks : List (List KoalaBear),
      ∃ l, (match poseidon_safe_domain_separator24 ctx
          [PARAMETER_LEN_FE, TWEAK_LEN_FE, blocks.length % 2 ^ 32, HASH_LEN_FE] with
        | none => none
        | some capacity =>
          poseidon_sponge24 ctx HASH_LEN_FE capacity
            (parameter ++ tweak.to_field_elements ++ blocks.flatten)) = some l ∧
        l.length = HASH_LEN_FE := by
    intro blocks
    obtain ⟨cap, hcap, hcaplen⟩ := poseidon_compress24_some ctx POSEIDON_CAPACITY_LEN
      (basePDigits (([PARAMETER_LEN_FE, TWEAK_LEN_FE, blocks.length % 2 ^ 32,
          HASH_LEN_FE] : List Nat).foldl (fun acc p => (acc <<< 32) ||| p % 2 ^ 32) 0) 24)
      (by rw [basePDigits_length]) (by rw [basePDigits_length]; norm_num)
    have hsep : poseidon_safe_domain_separator24 ctx
        [PARAMETER_LEN_FE, TWEAK_LEN_FE, blocks.length % 2 ^ 32, HASH_LEN_FE] = some cap := hcap
    rw [hsep]
    exact poseidon_sponge24_some ctx HASH_LEN_FE cap _ (by rw [hcaplen]; decide)
  rcases message with _ | ⟨b1, _ | ⟨b2, _ | ⟨b3, rest⟩⟩⟩
  · simpa [poseidon_apply] using hsponge []
  · have hb1 : b1.length = HASH_LEN_FE := hmsg b1 (by simp)
    rw [poseidon_apply]
    refine poseidon_compress16_some ctx HASH_LEN_FE _ ?_ ?_ <;>
      simp [hpar, htw, hb1] <;> decide
  · have hb1 : b1.length = HASH_LEN_FE := hmsg b1 (by simp)
    have hb2 : b2.length = HASH_LEN_FE := hmsg b2 (by simp)
    rw [poseidon_apply]
    refine poseidon_compress24_some ctx HASH_LEN_FE _ ?_ ?_ <;>
      simp [hpar, htw, hb1, hb2] <;> decide
  · simpa [poseidon_apply] using hsponge (b1 :: b2 :: b3 :: rest)

/-! ## Totality of the per-signature pipeline -/

theorem walkChainGo_some (ctx : PoseidonContext) (parameter : List KoalaBear)
    (epoch chain_index start_pos : Nat) (hpar : parameter.length = PARAMETER_LEN_FE) :
    ∀ (steps offset : Nat) (current : List KoalaBear), current.length = HASH_LEN_FE →
      ∃ l, walkChainGo ctx parameter epoch chain_index start_pos offset steps current = some l ∧
        l.length = HASH_LEN_FE := by
  intro steps
  induction steps with
  | zero => exact fun offset current h => ⟨current, rfl, h⟩
  | succ steps ih =>
    intro offset current hcur
    obtain ⟨next, hnext, hnextlen⟩ := poseidon_apply_some ctx parameter
      (.chain epoch chain_index ((start_pos + offset % 2 ^ 8 + 1) % 2 ^ 8)) [current] hpar
      (by intro b hb; simp at hb; rw [hb]; exact hcur)
    rw [walkChainGo, hnext]
    exact ih (offset + 1) next hnextlen

theorem chainEndsLoop_some (ctx : PoseidonContext) (parameter : List KoalaBear)
    (epoch : Nat) (hpar : parameter.length = PARAMETER_LEN_FE) :
    ∀ (pairs : List (Nat × List KoalaBear)) (chain_index : Nat),
      (∀ p ∈ pairs, p.2.length = HASH_LEN_FE) →
      ∃ r, chainEndsLoop ctx parameter epoch chain_index pairs = some r ∧
        ∀ ends, r = some ends → ∀ e ∈ ends, e.length = HASH_LEN_FE := by
  intro pairs
  induction pairs with
  | nil =>
    intro chain_index _
    refine ⟨some [], rfl, ?_⟩
    intro ends h e he
    cases h
    simp at he
  | cons p rest ih =>
    intro chain_index hmem
    obtain ⟨steps_seen, start_hash⟩ := p
    have hstart : start_hash.length = HASH_LEN_FE :=
      hmem (steps_seen, start_hash) (List.mem_cons_self _ _)
    rw [chainEndsLoop]
    by_cases hrej : BASE ≤ steps_seen
    · rw [if_pos hrej]
      exact ⟨none, rfl, fun ends h => by cases h⟩
    · rw [if_neg hrej]
      obtain ⟨prog, hprog, hproglen⟩ := walkChainGo_some ctx parameter epoch
        (chain_index % 2 ^ 8) steps_seen hpar (BASE - 1 - steps_seen) 0 start_hash hstart
      rw [walk_chain, hprog]
      obtain ⟨r, hr, hrprop⟩ := ih (chain_index + 1) (fun q hq => hmem q (by simp [hq]))
      rw [hr]
      cases r with
      | none => exact ⟨none, rfl, fun ends h => by cases h⟩
      | some ends =>
        refine ⟨some (prog :: ends), rfl, ?_⟩
        intro ends2 h e he
        cases h
        rcases List.mem_cons.mp he with rfl | hmem2
        · exact hproglen
        · exact hrprop ends rfl e hmem2

theorem treeLoop_some (ctx : PoseidonContext) (parameter : List KoalaBear)
    (hpar : parameter.length = PARAMETER_LEN_FE) :
    ∀ (path : List (List KoalaBear)) (level idx : Nat) (current : List KoalaBear),
      current.length = HASH_LEN_FE → (∀ s ∈ path, s.length = HASH_LEN_FE) →
      ∃ l, treeLoop ctx parameter level idx current path = some l := by
  intro path
  induction path with
  | nil => exact fun level idx current _ _ => ⟨current, rfl⟩
  | cons sibling rest ih =>
    intro level idx current hcur hmem
    have hsib : sibling.length = HASH_LEN_FE := hmem sibling (List.mem_cons_self _ _)
    simp only [treeLoop]
    by_cases hbit : idx &&& 1 = 0
    · rw [if_pos hbit]
      obtain ⟨next, hnext, hnextlen⟩ := poseidon_apply_some ctx parameter
        (.tree ((level % 2 ^ 8 + 1) % 2 ^ 8) (idx >>> 1)) [current, sibling] hpar
        (by intro b hb; simp at hb; rcases hb with rfl | rfl <;> assumption)
      rw [hnext]
      exact ih (level + 1) (idx >>> 1) next hnextlen (fun s hs => hmem s (by simp [hs]))
    · rw [if_neg hbit]
      obtain ⟨next, hnext, hnextlen⟩ := poseidon_apply_some ctx parameter
        (.tree ((level % 2 ^ 8 + 1) % 2 ^ 8) (idx >>> 1)) [sibling, current] hpar
        (by intro b hb; simp at hb; rcases hb with rfl | rfl <;> assumption)
      rw [hnext]
      exact ih (level + 1) (idx >>> 1) next hnextlen (fun s hs => hmem s (by simp [hs]))

theorem hash_tree_verify_isSome (ctx : PoseidonContext) (parameter root : List KoalaBear)
    (position : Nat) (leaf path : List (List KoalaBear))
    (hpar : parameter.length = PARAMETER_LEN_FE)
    (hleaf : ∀ b ∈ leaf, b.length = HASH_LEN_FE)
    (hpath : ∀ s ∈ path, s.length = HASH_LEN_FE) :
    (hash_tree_verify ctx parameter root position leaf path).isSome := by
  rw [hash_tree_verify]
  by_cases hlen : path.length ≠ TREE_HEIGHT
  · rw [if_pos hlen]; rfl
  · rw [if_neg hlen]
    obtain ⟨first, hfirst, hfirstlen⟩ :=
      poseidon_apply_some ctx parameter (.tree 0 position) leaf hpar hleaf
    obtain ⟨l, hl⟩ := treeLoop_some ctx parameter hpar path 0 position first hfirstlen hpath
    simp [hfirst, hl]

/-- The codeword computation succeeds for well-typed inputs and yields 155
base-2 digits (helper shared by the totality and codeword claims). -/
theorem targetsim_codeword_spec (ctx : PoseidonContext) (parameter : List KoalaBear)
    (epoch : Nat) (randomness : List KoalaBear) (message : List Nat)
    (hpar : parameter.length = PARAMETER_LEN_FE)
    (hrand : randomness.length = RANDOMNESS_LEN_FE) :
    ∃ cw, targetsim_codeword ctx parameter epoch randomness message = some cw ∧
      cw.length = NUM_CHAINS ∧ ∀ x ∈ cw, x < BASE := by
  have hin : (randomness ++ parameter ++ encode_epoch epoch ++ encode_message message).length
      = 22 := by
    rw [List.length_append, List.length_append, List.length_append, hpar, hrand,
      encode_epoch, encode_message, bigDigitsLoop_length, bigDigitsLoop_length]
    decide
  obtain ⟨hash, hhash, _⟩ := poseidon_compress24_some ctx MSG_HASH_LEN_FE
    (randomness ++ parameter ++ encode_epoch epoch ++ encode_message message)
    (by rw [hin]; decide) (by rw [hin]; decide)
  refine ⟨decode_to_chunks hash, ?_, ?_, ?_⟩
  · rw [targetsim_codeword, poseidon_message_hash, hhash]
    rfl
  · rw [decode_to_chunks, biguint_to_base_length]
  · intro x hx
    rw [decode_to_chunks] at hx
    exact biguint_to_base_lt BASE (by decide) _ _ x hx

theorem verify_one_isSome (ctx : PoseidonContext) (sig : Signature) (pk : PublicKey)
    (message : List Nat) (epoch : Nat) :
    (verify_one ctx sig pk message epoch).isSome := by
  rw [verify_one]
  by_cases h1 : sig.wots_chain_ends.length ≠ NUM_CHAINS
  · rw [if_pos h1]; rfl
  rw [if_neg h1]
  by_cases h2 : sig.auth_path.length ≠ TREE_HEIGHT
  · rw [if_pos h2]; rfl
  rw [if_neg h2]
  by_cases h3 : sig.randomness.length ≠ RANDOMNESS_LEN_FE * FE_BYTES
  · rw [if_pos h3]; rfl
  rw [if_neg h3]
  by_cases h4 : pk.parameter.length ≠ PARAMETER_LEN_FE * FE_BYTES ∨
      pk.root.length ≠ HASH_LEN_FE * FE_BYTES
  · rw [if_pos h4]; rfl
  rw [if_neg h4]
  by_cases h5 : sig.leaf_index ≠ epoch
  · rw [if_pos h5]; rfl
  rw [if_neg h5]
  cases hr : bytes_to_field_array RANDOMNESS_LEN_FE sig.randomness with
  | none => rfl
  | some randomness =>
  rw [orFalse]
  cases hp : bytes_to_field_array PARAMETER_LEN_FE pk.parameter with
  | none => rfl
  | some parameter =>
  rw [orFalse]
  cases hroot : bytes_to_field_array HASH_LEN_FE pk.root with
  | none => rfl
  | some pk_root =>
  rw [orFalse]
  cases hch : decode_domains sig.wots_chain_ends with
  | none => rfl
  | some chain_hashes =>
  rw [orFalse]
  cases hap : decode_domains sig.auth_path with
  | none => rfl
  | some auth_path =>
  rw [orFalse]
  cases hd : digest_to_array message with
  | none => rfl
  | some digest =>
  rw [orFalse]
  obtain ⟨cw, hcw, hcwlen, _⟩ := targetsim_codeword_spec ctx parameter epoch randomness digest
    (bytes_to_field_array_length _ _ _ hp) (bytes_to_field_array_length _ _ _ hr)
  have hguard : ¬(cw.length ≠ NUM_CHAINS) := by simp [hcwlen]
  obtain ⟨r, hr2, hrprop⟩ := chainEndsLoop_some ctx parameter epoch
    (bytes_to_field_array_length _ _ _ hp) (cw.zip chain_hashes) 0
    (by
      intro q hq
      exact decode_domains_mem _ _ hch q.2 (List.of_mem_zip hq).2)
  cases r with
  | none => simp [hcw, hguard, hr2]
  | some chain_ends =>
    have hh := hash_tree_verify_isSome ctx parameter pk_root epoch chain_ends auth_path
      (bytes_to_field_array_length _ _ _ hp)
      (hrprop chain_ends rfl)
      (decode_domains_mem _ _ hap)
    simpa [hcw, hguard, hr2] using hh

/-! ## Batch driver lemmas -/

theorem batchLoop_spec (ctx : PoseidonContext) (m : List Nat) (epoch : Nat) :
    ∀ (pairs : List (Signature × PublicKey)) (all_valid : Bool) (count : Nat),
      count < 2 ^ 32 →
      ∃ b, batchLoop ctx m epoch all_valid count pairs =
        some (b, (count + pairs.length) % 2 ^ 32) := by
  intro pairs
  induction pairs with
  | nil =>
    intro all_valid count hcount
    refine ⟨all_valid, ?_⟩
    rw [batchLoop]
    simp only [List.length_nil, Nat.add_zero]
    rw [Nat.mod_eq_of_lt hcount]
  | cons p rest ih =>
    intro all_valid count hcount
    obtain ⟨sig, pk⟩ := p
    obtain ⟨ok, hok⟩ := Option.isSome_iff_exists.mp (verify_one_isSome ctx sig pk m epoch)
    obtain ⟨b, hb⟩ := ih (all_valid && ok) ((count + 1) % 2 ^ 32) (Nat.mod_lt _ (by norm_num))
    refine ⟨b, ?_⟩
    simp only [batchLoop, hok, List.length_cons]
    rw [hb]
    congr 2
    rw [Nat.mod_add_mod]
    congr 1
    omega

/-! ## Concrete batches used as witnesses and counterexamples -/

/-- An empty batch (`k = 0`) with the supported parameter set. -/
def emptyGoodBatch : VerificationBatch :=
  ⟨⟨2, 155, 4, 128, 18⟩, ⟨0, 0, List.replicate 32 0, []⟩, ⟨[]⟩⟩

/-- An empty batch (`k = 0`) with the unsupported parameter set
`{w:4, v:4, tree_height:0}` from spec §8 scenario 2. -/
def paramMismatchBatch : VerificationBatch :=
  ⟨⟨4, 4, 4, 128, 0⟩, ⟨0, 0, List.replicate 32 0, []⟩, ⟨[]⟩⟩

/-! ## Claim theorems -/

/-- C10: for every input batch, `verify_batch` terminates and returns a value
without panicking — every assertion in the Poseidon compression and sponge
helpers holds at every call site, modelled by the result being `some`. -/
theorem verify_batch_no_panic (ctx : PoseidonContext) (batch : VerificationBatch) :
    (verify_batch ctx batch).isSome := by
  rw [verify_batch]
  split_ifs with hA hB hC
  · rfl
  · rfl
  · rfl
  · obtain ⟨b, hb⟩ := batchLoop_spec ctx batch.statement.m batch.statement.ep
      (batch.witness.signatures.zip batch.statement.public_keys) true 0 (by norm_num)
    rw [hb]
    rfl

/-- C1: `verify_batch` returns `(_, k)` whenever the pair-length, parameter
and epoch-fit guards pass (the count never decreases on a failing signature),
and returns `(false, 0)` whenever one of the three guards fails. -/
theorem verify_batch_count_spec (ctx : PoseidonContext) (batch : VerificationBatch) :
    (batch.statement.public_keys.length = batch.statement.k →
      batch.witness.signatures.length = batch.statement.k →
      params_match batch.params = true →
      batch.statement.ep < 2 ^ 32 →
      batch.statement.k < 2 ^ 32 →
      ∃ b, verify_batch ctx batch = some (b, batch.statement.k)) ∧
    (batch.statement.public_keys.length ≠ batch.statement.k ∨
      batch.witness.signatures.length ≠ batch.statement.k ∨
      params_match batch.params = false ∨
      2 ^ 32 ≤ batch.statement.ep →
      verify_batch ctx batch = some (false, 0)) := by
  constructor
  · intro h1 h2 h3 h4 hk
    rw [verify_batch, if_neg (by simp [h1, h2]), if_neg (by simp [h3]), if_neg (by omega)]
    obtain ⟨b, hb⟩ := batchLoop_spec ctx batch.statement.m batch.statement.ep
      (batch.witness.signatures.zip batch.statement.public_keys) true 0 (by norm_num)
    refine ⟨b, hb.trans ?_⟩
    congr 1
    congr 1
    rw [List.length_zip, h1, h2, Nat.min_self]
    omega
  · intro h
    rw [verify_batch]
    split_ifs with hA hB hC
    · rfl
    · rfl
    · rfl
    · exfalso
      rcases h with h | h | h | h
      · exact hA (Or.inl h)
      · exact hA (Or.inr h)
      · simp [h] at hB
      · exact hC h

/-- Witness for C1 at concrete batches: the guards-pass branch on
`emptyGoodBatch` and the guard-failure branch on `paramMismatchBatch`. -/
theorem verify_batch_count_spec_witness :
    (∃ b, verify_batch idCtx emptyGoodBatch = some (b, emptyGoodBatch.statement.k)) ∧
    verify_batch idCtx paramMismatchBatch = some (false, 0) :=
  ⟨(verify_batch_count_spec idCtx emptyGoodBatch).1 rfl rfl (by decide) (by decide)
      (by decide),
    (verify_batch_count_spec idCtx paramMismatchBatch).2 (Or.inr (Or.inr (Or.inl (by decide))))⟩

/-- C9 counterexample: a batch with `k = 0` and empty key/signature lists but
an unsupported parameter set, on which `verify_batch` returns `(false, 0)`
rather than `(true, 0)`. -/
theorem empty_batch_param_mismatch_cex :
    paramMismatchBatch.statement.k = 0 ∧
    paramMismatchBatch.statement.public_keys = [] ∧
    paramMismatchBatch.witness.signatures = [] ∧
    verify_batch idCtx paramMismatchBatch = some (false, 0) :=
  ⟨rfl, rfl, rfl, rfl⟩

/-- C9 (amended): for every batch with `k = 0`, empty key and signature lists,
a matching parameter set, and an epoch that fits in `u32`, `verify_batch`
returns `(true, 0)`. -/
theorem verify_batch_empty (ctx : PoseidonContext) (batch : VerificationBatch)
    (hk : batch.statement.k = 0) (hpk : batch.statement.public_keys = [])
    (hsig : batch.witness.signatures = [])
    (hparams : params_match batch.params = true)
    (hep : batch.statement.ep < 2 ^ 32) :
    verify_batch ctx batch = some (true, 0) := by
  rw [verify_batch, if_neg (by simp [hpk, hsig, hk]), if_neg (by simp [hparams]),
    if_neg (by omega)]
  rw [hsig]
  rfl

/-- Witness for the amended C9 on a concrete empty batch. -/
theorem verify_batch_empty_witness :
    verify_batch idCtx emptyGoodBatch = some (true, 0) :=
  verify_batch_empty idCtx emptyGoodBatch rfl rfl rfl (by decide) (by decide)

/-- C3: for every parameter, epoch, randomness and 32-byte message, the
codeword has length exactly 155 with every element below `BASE = 2`, so the
`steps_seen ≥ BASE` rejection in `verify_one` can never fire. -/
theorem targetsim_codeword_bits (ctx : PoseidonContext) (parameter : List KoalaBear)
    (epoch : Nat) (randomness : List KoalaBear) (message : List Nat)
    (hpar : parameter.length = PARAMETER_LEN_FE)
    (hrand : randomness.length = RANDOMNESS_LEN_FE)
    (_hmsg : message.length = 32) :
    ∃ cw, targetsim_codeword ctx parameter epoch randomness message = some cw ∧
      cw.length = NUM_CHAINS ∧ ∀ x ∈ cw, x < BASE :=
  targetsim_codeword_spec ctx parameter epoch randomness message hpar hrand

/-- Witness for C3 on concrete all-zero inputs. -/
theorem targetsim_codeword_bits_witness :
    ∃ cw, targetsim_codeword idCtx (List.replicate 5 0) 0 (List.replicate 6 0)
        (List.replicate 32 0) = some cw ∧
      cw.length = NUM_CHAINS ∧ ∀ x ∈ cw, x < BASE :=
  targetsim_codeword_bits idCtx (List.replicate 5 0) 0 (List.replicate 6 0)
    (List.replicate 32 0) (by decide) (by decide) (by decide)

/-- C5: the chain walk performs exactly `(BASE - 1) - start_pos` compressions:
none when `start_pos = 1` (the tip is returned unchanged), and exactly one
with tweak `Chain(epoch, chain_index, 1) = Chain(epoch, chain_index,
start_pos + 0 + 1)` when `start_pos = 0`. -/
theorem walk_chain_steps (ctx : PoseidonContext) (parameter : List KoalaBear)
    (epoch chain_index : Nat) (start_pos : Nat) (tip : List KoalaBear)
    (h : start_pos = 0 ∨ start_pos = 1) :
    walk_chain ctx parameter epoch chain_index start_pos (BASE - 1 - start_pos) tip =
      if start_pos = 1 then some tip
      else poseidon_apply ctx parameter (.chain epoch chain_index 1) [tip] := by
  rcases h with rfl | rfl
  · rw [if_neg (by norm_num)]
    show walkChainGo ctx parameter epoch chain_index 0 0 1 tip = _
    rw [walkChainGo]
    have harg : (0 + 0 % 2 ^ 8 + 1) % 2 ^ 8 = 1 := by norm_num
    rw [harg]
    cases happly : poseidon_apply ctx parameter (.chain epoch chain_index 1) [tip] <;>
      simp [happly, walkChainGo]
  · rw [if_pos rfl]
    rfl

/-- Witness for C5 at `start_pos = 1` on concrete arguments. -/
theorem walk_chain_steps_witness :
    walk_chain idCtx [] 0 0 1 (BASE - 1 - 1) [] =
      if (1 : Nat) = 1 then some [] else poseidon_apply idCtx [] (.chain 0 0 1) [[]] :=
  walk_chain_steps idCtx [] 0 0 1 [] (Or.inr rfl)

/-- C6: each tweak packs to its documented integer, `to_field_elements`
returns exactly two base-`p` digits (least significant first) whose
recombination `d0 + d1·p` is the packed integer, and every packed value is
below `p²`. -/
theorem tweak_to_field_elements_spec (t : PoseidonTweak) (h : tweak_in_range t) :
    t.to_field_elements.length = TWEAK_LEN_FE ∧
    (t.to_field_elements.getD 0 0).val +
      (t.to_field_elements.getD 1 0).val * FIELD_MODULUS = t.pack ∧
    t.pack < FIELD_MODULUS * FIELD_MODULUS := by
  have hpack : t.pack < 2 ^ 57 := by
    cases t with
    | tree level pos_in_level =>
      obtain ⟨hl, hp⟩ := h
      refine Nat.or_lt_two_pow (Nat.or_lt_two_pow ?_ ?_) ?_
      · rw [Nat.shiftLeft_eq]
        calc level * 2 ^ 40 < 2 ^ 8 * 2 ^ 40 := Nat.mul_lt_mul_of_pos_right hl (by norm_num)
          _ ≤ 2 ^ 57 := by norm_num
      · rw [Nat.shiftLeft_eq]
        calc pos_in_level * 2 ^ 8 < 2 ^ 32 * 2 ^ 8 :=
              Nat.mul_lt_mul_of_pos_right hp (by norm_num)
          _ ≤ 2 ^ 57 := by norm_num
      · decide
    | chain epoch chain_index pos_in_chain =>
      obtain ⟨he, hc, hp⟩ := h
      refine Nat.or_lt_two_pow (Nat.or_lt_two_pow (Nat.or_lt_two_pow ?_ ?_) ?_) ?_
      · rw [Nat.shiftLeft_eq]
        calc epoch * 2 ^ 24 < 2 ^ 32 * 2 ^ 24 := Nat.mul_lt_mul_of_pos_right he (by norm_num)
          _ ≤ 2 ^ 57 := by norm_num
      · rw [Nat.shiftLeft_eq]
        calc chain_index * 2 ^ 16 < 2 ^ 8 * 2 ^ 16 :=
              Nat.mul_lt_mul_of_pos_right hc (by norm_num)
          _ ≤ 2 ^ 57 := by norm_num
      · rw [Nat.shiftLeft_eq]
        calc pos_in_chain * 2 ^ 8 < 2 ^ 8 * 2 ^ 8 :=
              Nat.mul_lt_mul_of_pos_right hp (by norm_num)
          _ ≤ 2 ^ 57 := by norm_num
      · decide
  have hlt : t.pack < FIELD_MODULUS * FIELD_MODULUS := lt_trans hpack (by decide)
  refine ⟨tweak_fe_length t, ?_, hlt⟩
  have hfe : t.to_field_elements =
      [((t.pack % FIELD_MODULUS : Nat) : KoalaBear),
        ((t.pack / FIELD_MODULUS % FIELD_MODULUS : Nat) : KoalaBear)] := rfl
  rw [hfe]
  simp only [List.getD_cons_zero, List.getD_cons_succ, ZMod.val_natCast]
  simp only [FIELD_MODULUS] at hlt ⊢
  omega

/-- Witness for C6 on the concrete tweak `Chain(7, 3, 1)`. -/
theorem tweak_to_field_elements_spec_witness :
    (PoseidonTweak.chain 7 3 1).to_field_elements.length = TWEAK_LEN_FE ∧
    ((PoseidonTweak.chain 7 3 1).to_field_elements.getD 0 0).val +
      ((PoseidonTweak.chain 7 3 1).to_field_elements.getD 1 0).val * FIELD_MODULUS
      = (PoseidonTweak.chain 7 3 1).pack ∧
    (PoseidonTweak.chain 7 3 1).pack < FIELD_MODULUS * FIELD_MODULUS :=
  tweak_to_field_elements_spec (.chain 7 3 1) ⟨by norm_num, by norm_num, by norm_num⟩

/-- C7: the width-`W` compression equals the first `OUT_LEN` lanes of
`perm(pad_W(input)) + pad_W(input)` (feed-forward then truncation), for every
input of at most `W` elements and every `OUT_LEN` at most the input length;
`poseidon_compress16` and `poseidon_compress24` are its `W = 16` and `W = 24`
instances. -/
theorem poseidon_compress_feed_forward (w : Nat) (perm : List KoalaBear → List KoalaBear)
    (outLen : Nat) (input : List KoalaBear)
    (hp : (perm (padTo w input)).length = w)
    (h2 : input.length ≤ w) (h3 : outLen ≤ input.length) :
    poseidon_compressW w perm outLen input =
      some ((List.zipWith (fun a b => a + b) (perm (padTo w input)) (padTo w input)).take
        outLen) := by
  rw [poseidon_compressW, if_pos ⟨h3, h2⟩]
  congr 2
  rw [add_into_state, hp]

/-- Witness for C7 at `W = 16`, the identity permutation, and a concrete
14-element input. -/
theorem poseidon_compress_feed_forward_witness :
    poseidon_compressW 16 id 7 (List.replicate 14 (0 : KoalaBear)) =
      some ((List.zipWith (fun a b => a + b)
        (id (padTo 16 (List.replicate 14 (0 : KoalaBear))))
        (padTo 16 (List.replicate 14 (0 : KoalaBear)))).take 7) :=
  poseidon_compress_feed_forward 16 id 7 (List.replicate 14 (0 : KoalaBear))
    (by decide) (by decide) (by decide)

/-- The commitment buffer built by successive `extend_from_slice` calls equals
the flat byte string of spec §4.9. -/
theorem foldl_append_eq_flatten (pks : List PublicKey) :
    ∀ buf, pks.foldl (fun buf pk => buf ++ pk.root ++ pk.parameter) buf
      = buf ++ (pks.map (fun pk => pk.root ++ pk.parameter)).flatten := by
  induction pks with
  | nil => intro buf; simp
  | cons pk rest ih =>
    intro buf
    rw [List.foldl_cons, ih, List.map_cons, List.flatten_cons]
    simp [List.append_assoc]

/-- C8: `statement_commitment` is exactly the SHA-256 (abstracted as the
external hash) of `k(4 LE) ‖ ep(8 LE) ‖ mlen(4 LE) ‖ m ‖ pkslen(4 LE)`
followed by each key's root and parameter bytes verbatim. -/
theorem statement_commitment_spec (sha256 : List Nat → List Nat) (stmt : Statement) :
    statement_commitment sha256 stmt = sha256 (spec_commitment_bytes stmt) := by
  rw [statement_commitment, commitment_bytes, spec_commitment_bytes,
    foldl_append_eq_flatten stmt.public_keys []]
  simp

/-- The enumerate loop of the source Merkle verifier computes exactly the
per-level recursion written in spec §4.8 (the `u8` cast on the level is
lossless for the 18 levels in range). -/
theorem treeLoop_eq_merkleLoopSpec (ctx : PoseidonContext) (parameter : List KoalaBear) :
    ∀ (path : List (List KoalaBear)) (level idx : Nat) (current : List KoalaBear),
      level + path.length ≤ TREE_HEIGHT →
      treeLoop ctx parameter level idx current path =
        merkleLoopSpec ctx parameter level idx current path := by
  intro path
  induction path with
  | nil => intro level idx current _; rfl
  | cons sibling rest ih =>
    intro level idx current h
    have hlev : (level % 2 ^ 8 + 1) % 2 ^ 8 = level + 1 := by
      have hbound : level ≤ 17 := by simp [TREE_HEIGHT] at h; omega
      omega
    simp only [treeLoop, merkleLoopSpec, hlev]
    have hrec : (level + 1) + rest.length ≤ TREE_HEIGHT := by
      simp [TREE_HEIGHT] at h ⊢; omega
    by_cases hbit : idx &&& 1 = 0
    · rw [if_pos hbit, if_pos hbit]
      simp only [poseidon_apply]
      cases hc : poseidon_compress24 ctx HASH_LEN_FE
          (parameter ++ (PoseidonTweak.tree (level + 1) (idx >>> 1)).to_field_elements ++
            current ++ sibling) with
      | none => simp [hc]
      | some next =>
        simp only [hc]
        exact ih (level + 1) (idx >>> 1) next hrec
    · rw [if_neg hbit, if_neg hbit]
      simp only [poseidon_apply]
      cases hc : poseidon_compress24 ctx HASH_LEN_FE
          (parameter ++ (PoseidonTweak.tree (level + 1) (idx >>> 1)).to_field_elements ++
            sibling ++ current) with
      | none => simp [hc]
      | some next =>
        simp only [hc]
        exact ih (level + 1) (idx >>> 1) next hrec

/-- C4: on a 155-block leaf and an 18-level path, the source Merkle
verification equals the spec-side recursion: the leaf is hashed through the
sponge path under `Tree(0, leaf_index)`, each level orders the children by
`idx & 1`, halves `idx`, compresses under `Tree(level+1, idx)`, and the result
is compared with the root. -/
theorem hash_tree_verify_spec_eq (ctx : PoseidonContext) (parameter root : List KoalaBear)
    (position : Nat) (leaf path : List (List KoalaBear))
    (hleaf : leaf.length = NUM_CHAINS) (hpath : path.length = TREE_HEIGHT) :
    hash_tree_verify ctx parameter root position leaf path =
      merkle_verify_spec ctx parameter root position leaf path := by
  rcases leaf with _ | ⟨b1, _ | ⟨b2, _ | ⟨b3, rest⟩⟩⟩
  · simp at hleaf
  · simp at hleaf
  · simp at hleaf
  · have hlen : (b1 :: b2 :: b3 :: rest).length % 2 ^ 32 = NUM_CHAINS := by
      rw [hleaf]
      decide
    rw [hash_tree_verify, if_neg (by simp [hpath]), merkle_verify_spec]
    simp only [poseidon_apply]
    rw [hlen]
    cases hsep : poseidon_safe_domain_separator24 ctx
        [PARAMETER_LEN_FE, TWEAK_LEN_FE, NUM_CHAINS, HASH_LEN_FE] with
    | none => simp [hsep]
    | some capacity =>
      simp only [hsep]
      cases hsp : poseidon_sponge24 ctx HASH_LEN_FE capacity
          (parameter ++ (PoseidonTweak.tree 0 position).to_field_elements ++
            (b1 :: b2 :: b3 :: rest).flatten) with
      | none => simp [hsp]
      | some first =>
        simp only [hsp]
        rw [treeLoop_eq_merkleLoopSpec ctx parameter path 0 position first
          (by rw [hpath]; decide)]

/-- Witness for C4 on concrete 155-block / 18-level zero inputs. -/
theorem hash_tree_verify_spec_eq_witness :
    hash_tree_verify idCtx [] [] 0 (List.replicate 155 []) (List.replicate 18 []) =
      merkle_verify_spec idCtx [] [] 0 (List.replicate 155 []) (List.replicate 18 []) :=
  hash_tree_verify_spec_eq idCtx [] [] 0 (List.replicate 155 []) (List.replicate 18 [])
    (by decide) (by decide)

/-! ## A non-canonical signature that verifies (claim C2) -/

/-- 24 randomness bytes whose first 4-byte LE limb is `p = 2130706433` itself:
a non-canonical field-element encoding (`limb ≥ p`). -/
def cexRandomness : List Nat := [1, 0, 0, 127] ++ List.replicate 20 0

/-- A signature at epoch 0 with the non-canonical randomness, all-zero chain
tips and an all-zero authentication path. -/
def cexSignature : Signature :=
  ⟨0, cexRandomness, List.replicate 155 (List.replicate 28 0),
    List.replicate 18 (List.replicate 28 0)⟩

/-- The Merkle root (28 bytes) obtained by running the verification pipeline
forward on `cexSignature` under the identity permutations. -/
def cexRoot : List Nat := List.replicate 20 0 ++ [113, 183, 255, 16, 144, 72, 0, 0]

def cexPublicKey : PublicKey := ⟨cexRoot, List.replicate 20 0⟩

def cexMessage : List Nat := List.replicate 32 0

/-- C2 (code-bug evidence): the first randomness limb of `cexSignature` is
`≥ p` (non-canonical), yet `verify_one` — with the external permutations
instantiated to the identity — accepts the signature: the decoder silently
reduces the limb modulo `p` instead of rejecting it, so no input is ever
refused for non-canonicality. -/
theorem verify_one_accepts_noncanonical :
    FIELD_MODULUS ≤ bytesToU32 (cexSignature.randomness.take FE_BYTES) ∧
    verify_one idCtx cexSignature cexPublicKey cexMessage 0 = some true :=
  ⟨by decide, by decide⟩
